import Mathlib

/-!
Verification of the response-parsing / file-synchronization protocol of the
`ai-coder` repository (src/stage2/coder.js, first variant, plus the streaming
request lifecycle).  All definitions are shallow embeddings of the JavaScript
source; strings are modelled as `List Char` (the inputs of interest are ASCII,
where JavaScript UTF-16 code units and Lean characters agree).
-/

namespace AiCoder

/-- The backtick character (code point 96), written without a literal so the
file stays free of stray backticks outside strings. -/
def btick : Char := Char.ofNat 96

/-- Whitespace recognised by JavaScript `String.prototype.trim` (ASCII part:
space, tab, newline, carriage return, vertical tab, form feed). -/
def isWsChar (c : Char) : Bool :=
  c = ' ' || c = '\t' || c = '\n' || c = '\r' || c = Char.ofNat 11 || c = Char.ofNat 12

/-- Model of JavaScript `String.prototype.trim` on a character list. -/
def trimWs (l : List Char) : List Char :=
  ((l.dropWhile isWsChar).reverse.dropWhile isWsChar).reverse

/-- `hasChar c l` decides whether `c` occurs in `l`. -/
def hasChar (c : Char) : List Char → Bool
  | [] => false
  | x :: xs => x = c || hasChar c xs

/-- Take everything up to the first newline.  Models the regex fragment
`([^\n]+?)\n` of `parseAndUpdateFiles` (src/stage2/coder.js line 369): the lazy
group, being followed by a mandatory `\n`, always captures the whole line.
Returns `none` when the text has no newline at all (the regex then fails). -/
def takeLine : List Char → Option (List Char × List Char)
  | [] => none
  | c :: r =>
    if c = '\n' then some ([], r)
    else (takeLine r).map (fun p => (c :: p.1, p.2))

/-- Whether a character list starts with three backticks. -/
def startsFence : List Char → Bool
  | a :: b :: c :: _ => a = btick && b = btick && c = btick
  | _ => false

/-- Consume the block body: the regex fragment `([\s\S]*?)\n```` ``` ```` is a
lazy match, so the body ends at the first occurrence of a newline followed by
three backticks.  Returns the body together with the remainder after the
closing backticks. -/
def findClose : List Char → Option (List Char × List Char)
  | [] => none
  | c :: cs =>
    if c = '\n' ∧ startsFence cs then some ([], cs.drop 3)
    else (findClose cs).map (fun p => (c :: p.1, p.2))

/-- Whether the text contains a newline immediately followed by three
backticks, i.e. a position where `findClose` would stop. -/
def containsClose : List Char → Bool
  | [] => false
  | c :: cs => (decide (c = '\n') && startsFence cs) || containsClose cs

/-- Consume an opener line: exactly three backticks followed by a newline
(the regex demands the literal ` ``` ` and then `\n`; a language tag after the
backticks makes this fail). -/
def stripFenceNl : List Char → Option (List Char)
  | a :: b :: c :: d :: r =>
    if a = btick ∧ b = btick ∧ c = btick ∧ d = '\n' then some r else none
  | _ => none

/-- One attempt of the regex `^([^\n]+?)\n```` ``` ````\n([\s\S]*?)\n```` ``` ````
of `parseAndUpdateFiles` at a start-of-line position: a non-empty filename
line, an opener line of exactly three backticks, a lazily matched body, and a
closing newline-plus-three-backticks.  On success returns the parsed update
(filename trimmed, as in `match[1].trim()`) and the remaining text after the
closing backticks. -/
def matchAt (s : List Char) : Option ((String × String) × List Char) :=
  match takeLine s with
  | none => none
  | some (fname, r1) =>
    if fname = [] then none
    else
      match stripFenceNl r1 with
      | none => none
      | some r2 =>
        match findClose r2 with
        | none => none
        | some (body, rest) => some ((String.mk (trimWs fname), String.mk body), rest)

/-- The `while ((match = filePattern.exec(response)) !== null)` loop of
`parseAndUpdateFiles` (src/stage2/coder.js lines 365-380): scan left to right;
at each start-of-line position (`^` with the `m` flag) attempt `matchAt`; on a
match emit the update and resume right after the closing backticks (which is
never a start-of-line position, the preceding character being a backtick);
otherwise advance one character.  `fuel` bounds the recursion; one character
is consumed at minimum per step, so `length + 1` fuel is always enough. -/
def parseLoopF : Nat → List Char → Bool → List (String × String)
  | 0, _, _ => []
  | fuel + 1, s, bol =>
    if bol then
      match matchAt s with
      | some (u, rest) => u :: parseLoopF fuel rest false
      | none =>
        match s with
        | [] => []
        | c :: s2 => parseLoopF fuel s2 (c = '\n')
    else
      match s with
      | [] => []
      | c :: s2 => parseLoopF fuel s2 (c = '\n')

/-- `parseAndUpdateFiles` (src/stage2/coder.js lines 365-380): extract the
ordered list of `{filename, content}` updates from a response text. -/
def parseAndUpdateFiles (response : String) : List (String × String) :=
  parseLoopF (response.data.length + 1) response.data true

/-! ### Structure lemmas for the scanner components -/

theorem takeLine_eq : ∀ s l r, takeLine s = some (l, r) →
    hasChar '\n' l = false ∧ s = l ++ '\n' :: r := by
  intro s
  induction s with
  | nil => intro l r h; simp [takeLine] at h
  | cons c cs ih =>
    intro l r h
    by_cases hc : c = '\n'
    · subst hc
      simp [takeLine] at h
      obtain ⟨h1, h2⟩ := h
      subst h1; subst h2
      simp [hasChar]
    · simp only [takeLine, if_neg hc] at h
      rcases htc : takeLine cs with _ | p
      · rw [htc] at h; simp at h
      · rw [htc] at h
        simp only [Option.map_some', Option.some.injEq, Prod.mk.injEq] at h
        obtain ⟨hl1, hr1⟩ := h
        obtain ⟨hl, hs⟩ := ih p.1 p.2 (by rw [htc])
        subst hl1; subst hr1
        constructor
        · simp [hasChar, hc, hl]
        · rw [hs]; simp

theorem takeLine_append (l : List Char) (r : List Char) (hl : hasChar '\n' l = false) :
    takeLine (l ++ '\n' :: r) = some (l, r) := by
  induction l with
  | nil => simp [takeLine]
  | cons c cs ih =>
    simp [hasChar] at hl
    obtain ⟨hc, hcs⟩ := hl
    simp [takeLine, hc, ih hcs]

theorem startsFence_append_close (cs r : List Char) :
    startsFence (cs ++ '\n' :: btick :: btick :: btick :: r) = startsFence cs := by
  match cs with
  | [] => simp [startsFence, btick]
  | [a] => simp [startsFence, btick]
  | [a, b] => simp [startsFence, btick]
  | a :: b :: c :: rest => simp [startsFence]

theorem findClose_append (b : List Char) (r : List Char) (hb : containsClose b = false) :
    findClose (b ++ '\n' :: btick :: btick :: btick :: r) = some (b, r) := by
  induction b with
  | nil => simp [findClose, startsFence]
  | cons c cs ih =>
    simp only [containsClose, Bool.or_eq_false_iff, Bool.and_eq_false_iff] at hb
    obtain ⟨h1, h2⟩ := hb
    have hguard : ¬ (c = '\n' ∧ startsFence (cs ++ '\n' :: btick :: btick :: btick :: r)) := by
      rw [startsFence_append_close]
      rintro ⟨hc, hf⟩
      rcases h1 with h1 | h1
      · simp [hc] at h1
      · simp [h1] at hf
    simp [findClose, hguard, ih h2]

theorem findClose_eq : ∀ s b r, findClose s = some (b, r) →
    s = b ++ '\n' :: btick :: btick :: btick :: r ∧ containsClose b = false := by
  intro s
  induction s with
  | nil => intro b r h; simp [findClose] at h
  | cons c cs ih =>
    intro b r h
    by_cases hg : c = '\n' ∧ startsFence cs
    · simp only [findClose, if_pos hg] at h
      obtain ⟨hc, hf⟩ := hg
      rcases cs with _ | ⟨a, _ | ⟨a2, _ | ⟨a3, rest⟩⟩⟩
      · simp [startsFence] at hf
      · simp [startsFence] at hf
      · simp [startsFence] at hf
      · simp only [startsFence, Bool.and_eq_true, decide_eq_true_eq] at hf
        simp only [List.drop_succ_cons, List.drop_zero, Option.some.injEq, Prod.mk.injEq] at h
        obtain ⟨h1, h2⟩ := h
        subst hc
        constructor
        · simp [← h1, ← h2, hf.1.1, hf.1.2, hf.2]
        · simp [← h1, containsClose]
    · simp only [findClose, if_neg hg] at h
      rcases hfc : findClose cs with _ | p
      · rw [hfc] at h; simp at h
      · rw [hfc] at h
        simp only [Option.map_some', Option.some.injEq, Prod.mk.injEq] at h
        obtain ⟨hb, hr⟩ := h
        obtain ⟨hs, hcc⟩ := ih p.1 p.2 (by rw [hfc])
        subst hb; subst hr
        constructor
        · rw [hs]; simp
        · simp only [containsClose, Bool.or_eq_false_iff, Bool.and_eq_false_iff]
          refine ⟨?_, hcc⟩
          by_cases hc : c = '\n'
          · right
            by_cases hsf : startsFence p.1 = true
            · exact absurd ⟨hc, by rw [hs, startsFence_append_close]; exact hsf⟩ hg
            · simpa using hsf
          · left; simp [hc]

theorem stripFenceNl_eq : ∀ xs r, stripFenceNl xs = some r →
    xs = btick :: btick :: btick :: '\n' :: r := by
  intro xs r h
  rcases xs with _ | ⟨a, _ | ⟨b, _ | ⟨c, _ | ⟨d, t⟩⟩⟩⟩ <;> simp [stripFenceNl] at h
  simp_all

theorem stripFenceNl_fence (r : List Char) :
    stripFenceNl (btick :: btick :: btick :: '\n' :: r) = some r := by
  simp [stripFenceNl]

/-- Anatomy of a successful `matchAt`: the filename is the whitespace-trim of a
non-empty newline-free line, the body contains no newline-plus-fence, and the
match consumes at least one character. -/
theorem matchAt_eq : ∀ s u rest, matchAt s = some (u, rest) →
    ∃ raw body, raw ≠ [] ∧ hasChar '\n' raw = false ∧
      u = (String.mk (trimWs raw), String.mk body) ∧ containsClose body = false ∧
      s = raw ++ '\n' :: btick :: btick :: btick :: '\n' ::
        (body ++ '\n' :: btick :: btick :: btick :: rest) := by
  intro s u rest h
  unfold matchAt at h
  rcases htl : takeLine s with _ | ⟨fname, r1⟩
  · rw [htl] at h; simp at h
  · simp only [htl] at h
    by_cases hemp : fname = []
    · rw [if_pos hemp] at h; simp at h
    · rw [if_neg hemp] at h
      rcases hsf : stripFenceNl r1 with _ | r2
      · rw [hsf] at h; simp at h
      · simp only [hsf] at h
        rcases hfc : findClose r2 with _ | ⟨body, after⟩
        · rw [hfc] at h; simp at h
        · simp only [hfc, Option.some.injEq, Prod.mk.injEq] at h
          obtain ⟨hu, hrest⟩ := h
          obtain ⟨hnl, hs⟩ := takeLine_eq s fname r1 htl
          obtain ⟨hr2, hcc⟩ := findClose_eq r2 body after hfc
          refine ⟨fname, body, hemp, hnl, ?_, hcc, ?_⟩
          · rw [← hu]
          · rw [hs, stripFenceNl_eq r1 r2 hsf, hr2, hrest]

theorem matchAt_length {s : List Char} {u : String × String} {rest : List Char}
    (h : matchAt s = some (u, rest)) : rest.length < s.length := by
  obtain ⟨raw, body, hraw, -, -, -, hs⟩ := matchAt_eq s u rest h
  rw [hs]
  simp [List.length_append]
  omega

theorem parseLoopF_succ_true (fuel : Nat) (s : List Char) :
    parseLoopF (fuel + 1) s true =
      (match matchAt s with
      | some (u, rest) => u :: parseLoopF fuel rest false
      | none =>
        match s with
        | [] => []
        | c :: s2 => parseLoopF fuel s2 (c = '\n')) := rfl

theorem parseLoopF_succ_false (fuel : Nat) (s : List Char) :
    parseLoopF (fuel + 1) s false =
      (match s with
      | [] => []
      | c :: s2 => parseLoopF fuel s2 (c = '\n')) := rfl

theorem parseLoopF_irrel : ∀ n m (s : List Char) (bol : Bool), s.length < n → s.length < m →
    parseLoopF n s bol = parseLoopF m s bol := by
  intro n
  induction n with
  | zero => intro m s bol h1 _; exact absurd h1 (Nat.not_lt_zero _)
  | succ n ih =>
    intro m s bol h1 h2
    rcases m with _ | m
    · exact absurd h2 (Nat.not_lt_zero _)
    · rcases bol with _ | _
      · rcases s with _ | ⟨c, s2⟩
        · rfl
        · simp only [parseLoopF, Bool.false_eq_true, if_false]
          exact ih m s2 (c = '\n') (by simp at h1; omega) (by simp at h2; omega)
      · rcases hm : matchAt s with _ | ur
        · rcases s with _ | ⟨c, s2⟩
          · rfl
          · simp only [parseLoopF, if_true, hm]
            exact ih m s2 (c = '\n') (by simp at h1; omega) (by simp at h2; omega)
        · simp only [parseLoopF, if_true, hm]
          have hlen := matchAt_length hm
          have h1' : ur.2.length < n := by omega
          have h2' : ur.2.length < m := by omega
          rw [ih m ur.2 false h1' h2']

/-- The scan at a given start position with always-sufficient fuel. -/
def parseRun (s : List Char) (bol : Bool) : List (String × String) :=
  parseLoopF (s.length + 1) s bol

theorem parseAndUpdateFiles_eq (response : String) :
    parseAndUpdateFiles response = parseRun response.data true := rfl

theorem parseRun_nil (bol : Bool) : parseRun [] bol = [] := by
  rcases bol with _ | _ <;> rfl

theorem parseRun_cons_notbol (c : Char) (s2 : List Char) :
    parseRun (c :: s2) false = parseRun s2 (c = '\n') := rfl

theorem parseRun_match {s : List Char} {u : String × String} {rest : List Char}
    (h : matchAt s = some (u, rest)) :
    parseRun s true = u :: parseRun rest false := by
  show parseLoopF (s.length + 1) s true = _
  rw [parseLoopF_succ_true, h]
  show u :: parseLoopF s.length rest false = _
  rw [parseLoopF_irrel s.length (rest.length + 1) rest false (matchAt_length h) (Nat.lt_succ_self _)]
  rfl

theorem parseRun_nomatch {c : Char} {s2 : List Char} (h : matchAt (c :: s2) = none) :
    parseRun (c :: s2) true = parseRun s2 (c = '\n') := by
  show parseLoopF (s2.length + 1 + 1) (c :: s2) true = _
  rw [parseLoopF_succ_true, h]
  rfl

/-- Every update emitted by the scan loop arises from a successful `matchAt`:
its filename is the trim of a non-empty newline-free raw line and its content
contains no newline-plus-triple-backtick. -/
theorem parseLoopF_sound : ∀ (n : Nat) (s : List Char) (bol : Bool) (u : String × String),
    u ∈ parseLoopF n s bol →
    ∃ raw body, raw ≠ [] ∧ hasChar '\n' raw = false ∧
      u = (String.mk (trimWs raw), String.mk body) ∧ containsClose body = false := by
  intro n
  induction n with
  | zero => intro s bol u hu; simp [parseLoopF] at hu
  | succ n ih =>
    intro s bol u hu
    rcases bol with _ | _
    · rcases s with _ | ⟨c, s2⟩
      · simp [parseLoopF] at hu
      · exact ih s2 (c = '\n') u hu
    · rcases hm : matchAt s with _ | ⟨u2, rest⟩
      · rcases s with _ | ⟨c, s2⟩
        · rw [parseLoopF_succ_true, hm] at hu; simp at hu
        · rw [show parseLoopF (n + 1) (c :: s2) true = parseLoopF n s2 (c = '\n') by
            rw [parseLoopF_succ_true, hm]] at hu
          exact ih s2 (c = '\n') u hu
      · rw [show parseLoopF (n + 1) s true = u2 :: parseLoopF n rest false by
          rw [parseLoopF_succ_true, hm]] at hu
        rcases List.mem_cons.mp hu with hu | hu
        · obtain ⟨raw, body, h1, h2, h3, h4, -⟩ := matchAt_eq s u2 rest hm
          exact ⟨raw, body, h1, h2, by rw [hu, h3], h4⟩
        · exact ih rest false u hu

/-- Soundness of `parseAndUpdateFiles` outputs. -/
theorem parseAndUpdateFiles_sound (response : String) (u : String × String)
    (hu : u ∈ parseAndUpdateFiles response) :
    ∃ raw body, raw ≠ [] ∧ hasChar '\n' raw = false ∧
      u = (String.mk (trimWs raw), String.mk body) ∧ containsClose body = false :=
  parseLoopF_sound (response.data.length + 1) response.data true u hu

/-! ### Well-formed responses: prose lines and filename+fence blocks

A response made of prose lines and well-formed blocks, rendered to text per
the convention of `SYSTEM_PROMPT_COMMIT` (filename alone on a line, complete
content between triple-backtick marks). -/

/-- One item of a structured response: a prose line, or a filename+fence
block. -/
inductive RItem where
  | prose (line : String)
  | block (filename content : String)
deriving DecidableEq

/-- Render one item to text: a prose line is the line plus a newline; a block
is the filename line, a bare triple-backtick opener line, the content, and a
triple-backtick closer line. -/
def renderItem : RItem → List Char
  | .prose l => l.data ++ ['\n']
  | .block f b =>
      f.data ++ '\n' :: btick :: btick :: btick :: '\n' ::
        (b.data ++ '\n' :: btick :: btick :: btick :: ['\n'])

/-- Render a list of items by concatenation. -/
def renderItems : List RItem → List Char
  | [] => []
  | i :: is => renderItem i ++ renderItems is

/-- Well-formedness: prose lines are newline-free and not a bare fence line;
block filenames are non-empty, newline-free and not a bare fence line; block
contents contain no newline-plus-triple-backtick. -/
def wfItem : RItem → Bool
  | .prose l => !(hasChar '\n' l.data) && !(l.data == [btick, btick, btick])
  | .block f b =>
      !(f.data == ([] : List Char)) && !(hasChar '\n' f.data) &&
      !(f.data == [btick, btick, btick]) && !(containsClose b.data)

/-- The parsed updates a structured response should produce: its blocks, in
document order, with trimmed filenames. -/
def blockUpdates : List RItem → List (String × String)
  | [] => []
  | .prose _ :: is => blockUpdates is
  | .block f b :: is => (String.mk (trimWs f.data), b) :: blockUpdates is

theorem line_not_fence {L : List Char} (hnl : hasChar '\n' L = false)
    (hne : L ≠ [btick, btick, btick]) (r ys : List Char) :
    L ++ '\n' :: r ≠ btick :: btick :: btick :: '\n' :: ys := by
  rcases L with _ | ⟨a, _ | ⟨b, _ | ⟨c, _ | ⟨d, t⟩⟩⟩⟩ <;>
    intro h <;> simp only [List.nil_append, List.cons_append, List.cons.injEq] at h
  · exact absurd h.1 (by decide)
  · exact absurd h.2.1 (by decide)
  · exact absurd h.2.2.1 (by decide)
  · exact hne (by simp [h.1, h.2.1, h.2.2.1])
  · simp only [hasChar, Bool.or_eq_false_iff] at hnl
    exact absurd h.2.2.2.1 (by simp [decide_eq_false_iff_not] at hnl; simp [hnl.2.2.2.1])

theorem stripFenceNl_eq_none (xs : List Char)
    (h : ∀ r, xs ≠ btick :: btick :: btick :: '\n' :: r) : stripFenceNl xs = none := by
  rcases xs with _ | ⟨a, _ | ⟨b, _ | ⟨c, _ | ⟨d, t⟩⟩⟩⟩ <;> simp [stripFenceNl]
  intro ha hb hc hd
  exact h t (by simp [ha, hb, hc, hd])

/-- A well-formed rendered response never begins with a bare fence opener
line, so a preceding line can never be mistaken for a filename. -/
theorem renderItems_stripFence (items : List RItem) (h : ∀ i ∈ items, wfItem i = true) :
    stripFenceNl (renderItems items) = none := by
  rcases items with _ | ⟨i, is⟩
  · rfl
  · have hi : wfItem i = true := h i (by simp)
    rcases i with l | ⟨f, b⟩
    · simp only [wfItem, Bool.and_eq_true, Bool.not_eq_true'] at hi
      apply stripFenceNl_eq_none
      intro r
      have : l.data ++ ['\n'] ++ renderItems is = l.data ++ '\n' :: renderItems is := by simp
      rw [renderItems, renderItem, this]
      exact line_not_fence hi.1 (by simpa using hi.2) (renderItems is) r
    · simp only [wfItem, Bool.and_eq_true, Bool.not_eq_true'] at hi
      apply stripFenceNl_eq_none
      intro r
      rw [renderItems, renderItem, List.append_assoc]
      exact line_not_fence hi.1.1.2 (by simpa using hi.1.2) _ r

theorem matchAt_line_none (l rest : List Char) (hl : hasChar '\n' l = false)
    (hst : stripFenceNl rest = none) : matchAt (l ++ '\n' :: rest) = none := by
  unfold matchAt
  simp only [takeLine_append l rest hl]
  by_cases hle : l = []
  · simp [hle]
  · simp [hle, hst]

theorem parseRun_skip_notbol : ∀ l rest, hasChar '\n' l = false →
    parseRun (l ++ '\n' :: rest) false = parseRun rest true := by
  intro l
  induction l with
  | nil =>
    intro rest _
    rw [List.nil_append, parseRun_cons_notbol]
    simp
  | cons c cs ih =>
    intro rest hl
    simp only [hasChar, Bool.or_eq_false_iff, decide_eq_false_iff_not] at hl
    rw [List.cons_append, parseRun_cons_notbol,
      show (decide (c = '\n')) = false by simp [hl.1]]
    exact ih rest hl.2

theorem parseRun_skip_line (l rest : List Char) (hl : hasChar '\n' l = false)
    (hm : matchAt (l ++ '\n' :: rest) = none) :
    parseRun (l ++ '\n' :: rest) true = parseRun rest true := by
  rcases l with _ | ⟨c, cs⟩
  · rw [List.nil_append] at hm ⊢
    rw [parseRun_nomatch hm]
    simp
  · simp only [hasChar, Bool.or_eq_false_iff, decide_eq_false_iff_not] at hl
    rw [List.cons_append] at hm ⊢
    rw [parseRun_nomatch hm, show (decide (c = '\n')) = false by simp [hl.1]]
    exact parseRun_skip_notbol cs rest hl.2

/-- The parser recovers exactly the blocks of a well-formed structured
response, in document order; prose lines contribute nothing. -/
theorem parseRun_renderItems : ∀ items : List RItem, (∀ i ∈ items, wfItem i = true) →
    parseRun (renderItems items) true = blockUpdates items := by
  intro items
  induction items with
  | nil => intro _; exact parseRun_nil true
  | cons i is ih =>
    intro hwf
    have hwfi : wfItem i = true := hwf i (by simp)
    have hwfis : ∀ j ∈ is, wfItem j = true := fun j hj => hwf j (by simp [hj])
    rcases i with l | ⟨f, b⟩
    · simp only [wfItem, Bool.and_eq_true, Bool.not_eq_true'] at hwfi
      have hrend : renderItems (RItem.prose l :: is) = l.data ++ '\n' :: renderItems is := by
        simp [renderItems, renderItem]
      have hm : matchAt (l.data ++ '\n' :: renderItems is) = none :=
        matchAt_line_none l.data (renderItems is) hwfi.1 (renderItems_stripFence is hwfis)
      rw [hrend, parseRun_skip_line l.data (renderItems is) hwfi.1 hm, blockUpdates]
      exact ih hwfis
    · simp only [wfItem, Bool.and_eq_true, Bool.not_eq_true'] at hwfi
      have hrend : renderItems (RItem.block f b :: is) =
          f.data ++ '\n' :: btick :: btick :: btick :: '\n' ::
            (b.data ++ '\n' :: btick :: btick :: btick :: ('\n' :: renderItems is)) := by
        simp [renderItems, renderItem]
      have hm : matchAt (f.data ++ '\n' :: btick :: btick :: btick :: '\n' ::
          (b.data ++ '\n' :: btick :: btick :: btick :: ('\n' :: renderItems is))) =
          some ((String.mk (trimWs f.data), String.mk b.data), '\n' :: renderItems is) := by
        unfold matchAt
        simp only [takeLine_append f.data _ hwfi.1.1.2]
        rw [if_neg (by simpa using hwfi.1.1.1)]
        simp only [stripFenceNl_fence]
        simp only [findClose_append b.data _ hwfi.2]
      have hb : String.mk b.data = b := rfl
      rw [hrend, parseRun_match hm, parseRun_cons_notbol,
        show (decide (('\n' : Char) = '\n')) = true by simp, blockUpdates, hb]
      rw [ih hwfis]

/-! ### File synchronizer (the update loop of `createCommit`,
src/stage2/coder.js lines 412-438)

The working tree is modelled as a partial map from filenames to whole-file
contents.  For each update the code checks `fs.existsSync`, reads the old
content, and writes (creating directories as needed) only when the file is
missing or its content differs; only then is the filename pushed onto
`changedFiles`.  A change record carries (filename, written content,
existed-before flag): the flag drives the `Updated`/`Created` message. -/

/-- Apply one `ParsedFileUpdate`.  Returns the new tree and the change record,
`none` when the write was skipped (file already byte-identical). -/
def applyUpdate (fs : String → Option String) (u : String × String) :
    (String → Option String) × Option (String × String × Bool) :=
  match fs u.1 with
  | some old =>
    if old = u.2 then (fs, none)
    else ((fun p => if p = u.1 then some u.2 else fs p), some (u.1, u.2, true))
  | none => ((fun p => if p = u.1 then some u.2 else fs p), some (u.1, u.2, false))

/-- The `for (let update of fileUpdates)` loop: apply updates in order,
collecting change records in order (the `changedFiles` list). -/
def applyUpdates (fs : String → Option String) :
    List (String × String) → (String → Option String) × List (String × String × Bool)
  | [] => (fs, [])
  | u :: us =>
    let r := applyUpdate fs u
    let rest := applyUpdates r.1 us
    (rest.1, (match r.2 with | some e => [e] | none => []) ++ rest.2)

/-- The filenames of a change list: the `changedFiles` array of the source. -/
def changedNames (l : List (String × String × Bool)) : List String := l.map (fun e => e.1)

/-- External commands and reports issued by `createCommit` after the response
is parsed (src/stage2/coder.js lines 400-472), in order. -/
inductive GitEff where
  | diff (files : List String)
  | add (file : String)
  | commit (message : String)
  | reportNoUpdates
  | reportNoChanges
deriving DecidableEq

/-- The orchestration in `createCommit`'s completion callback: parse the
response; if no updates, report and stop; apply updates; if nothing changed,
report "No files were changed." and stop; otherwise take the diff of the
changed files, `git add` each changed file, and commit with
`summary + "\n\nOriginal prompt:\n\n" + originalPrompt` fed via stdin
(`git commit -F -`).  The commit-message model call is abstracted as the
`summary` argument. -/
def createCommitEffects (fs : String → Option String)
    (response summary originalPrompt : String) : List GitEff :=
  let fileUpdates := parseAndUpdateFiles response
  if fileUpdates.length = 0 then [GitEff.reportNoUpdates]
  else
    let changed := (applyUpdates fs fileUpdates).2
    if (changedNames changed).length = 0 then [GitEff.reportNoChanges]
    else
      GitEff.diff (changedNames changed) ::
        (changedNames changed).map GitEff.add ++
        [GitEff.commit (summary ++ "\n\nOriginal prompt:\n\n" ++ originalPrompt)]

/-! ### REPL turn lifecycle (`processMessage`, src/stage2/coder.js
lines 615-685)

A turn appends the user message to `conversationHistory` (line 630) *before*
the stream starts, then streams.  On completion the assistant response is
appended (line 654); the `aborted` flag set by the abort function returned
from `streamLLM` (lines 225-231) suppresses the completion callback, so an
aborted turn appends no assistant message.  The SIGINT handler (lines
666-677) aborts and re-prompts while a request is processing, and only calls
`rl.close()` (which exits the process) when no request is in flight. -/

/-- Message roles. -/
inductive Role where
  | system
  | user
  | assistant
deriving DecidableEq

/-- A conversation message. -/
structure Message where
  role : Role
  content : String
deriving DecidableEq

/-- `userMessage` construction of `processMessage` (lines 623-627): the prompt,
plus a "Current files:" section when file context is non-empty. -/
def buildUserMessage (prompt filesContent : String) : String :=
  if filesContent = "" then prompt else prompt ++ "\n\nCurrent files:\n" ++ filesContent

/-- Whether the SIGINT handler of `processMessage` (lines 666-677) exits the
process: it aborts and re-prompts while processing, and closes the readline
interface (whose close handler calls `process.exit(0)`, line 804-807) only
when idle. -/
def sigintExits (isProcessing : Bool) : Bool :=
  if isProcessing then false else true

/-- How a streamed turn ends. -/
inductive StreamOutcome where
  | completed (response : String)
  | aborted (droppedText : String)
  | errored (message : String)

/-- One REPL message turn: the resulting conversation history and whether the
process exited during the turn.  The user message is pushed before the stream
starts; only a completed stream pushes an assistant message (the `aborted`
flag suppresses `onComplete`); a user abort goes through the SIGINT handler
while `isProcessing` is true. -/
def processMessageTurn (history : List Message) (prompt filesContent : String)
    (outcome : StreamOutcome) : List Message × Bool :=
  let h1 := history ++ [⟨Role.user, buildUserMessage prompt filesContent⟩]
  match outcome with
  | .completed response => (h1 ++ [⟨Role.assistant, response⟩], false)
  | .aborted _ => (h1, sigintExits true)
  | .errored _ => (h1, false)

/-! ### Streaming client (`streamLLM`, src/stage2/coder.js lines 176-206) and
buffered client (`callLLM`, lines 239-304)

The wire protocol: each content fragment arrives as a server-sent-events
frame, one line `data: <json>` terminated by a newline, where the JSON is
`{"choices":[{"delta":{"content": <fragment>}}]}`; the stream ends with the
sentinel line `data: [DONE]`.  `streamLLM` splits each *network chunk*
(not the whole stream) on newlines, skips blank lines and lines containing
`[DONE]`, strips a leading `data: `, trims, parses the JSON and accumulates
`json.choices[0].delta?.content || ''`; a line that fails to parse is
silently skipped (the `catch` only logs).  `callLLM` concatenates the whole
body, parses it as JSON and returns `response.choices[0].message.content`. -/

/-- `startsWithL pat s`: `pat` is a prefix of `s`. -/
def startsWithL : List Char → List Char → Bool
  | [], _ => true
  | _ :: _, [] => false
  | p :: ps, c :: cs => p = c && startsWithL ps cs

/-- `containsSeq pat s`: `pat` occurs as a contiguous subsequence of `s`
(models JavaScript `String.prototype.includes`). -/
def containsSeq (pat : List Char) : List Char → Bool
  | [] => startsWithL pat []
  | c :: t => startsWithL pat (c :: t) || containsSeq pat t

/-- `String.prototype.split('\n')`: separator removed, empty pieces kept. -/
def splitNl : List Char → List (List Char)
  | [] => [[]]
  | c :: r =>
    if c = '\n' then [] :: splitNl r
    else
      match splitNl r with
      | [] => [[c]]
      | l :: ls => (c :: l) :: ls

/-- Concatenation of a list of character lists. -/
def joinL : List (List Char) → List Char
  | [] => []
  | l :: ls => l ++ joinL ls

/-- The `data: ` marker stripped by `line.replace(/^data: /, '')`. -/
def dataTag : List Char := "data: ".data

/-- The `[DONE]` sentinel text. -/
def doneSeq : List Char := "[DONE]".data

/-- `line.replace(/^data: /, '')`: remove the marker when the line starts
with it, otherwise leave the line unchanged (the regex is anchored). -/
def stripDataTag (l : List Char) : List Char :=
  if startsWithL dataTag l then l.drop dataTag.length else l

/-- JSON string escaping as produced by the server for a content fragment
(the subset relevant here: quote, backslash, newline, carriage return, tab;
all other characters stand for themselves). -/
def escChar (c : Char) : List Char :=
  if c = '"' then ['\\', '"']
  else if c = '\\' then ['\\', '\\']
  else if c = '\n' then ['\\', 'n']
  else if c = '\r' then ['\\', 'r']
  else if c = '\t' then ['\\', 't']
  else [c]

/-- Escape a whole string. -/
def escapeStr : List Char → List Char
  | [] => []
  | c :: cs => escChar c ++ escapeStr cs

/-- JSON escape-sequence decoding (the subset the encoder emits, plus `\/`). -/
def unescChar (c : Char) : Option Char :=
  if c = '"' then some '"'
  else if c = '\\' then some '\\'
  else if c = 'n' then some '\n'
  else if c = 'r' then some '\r'
  else if c = 't' then some '\t'
  else if c = '/' then some '/'
  else none

/-- Parse a JSON string body up to its closing unescaped quote.  The flag
records that the previous character was a backslash, so the next character is
decoded as an escape; `none` on any malformed input (as `JSON.parse` would
throw). -/
def parseEscAux : Bool → List Char → Option (List Char × List Char)
  | _, [] => none
  | true, e :: r =>
    match unescChar e with
    | none => none
    | some u => (parseEscAux false r).map (fun p => (u :: p.1, p.2))
  | false, c :: r =>
    if c = '"' then some ([], r)
    else if c = '\\' then parseEscAux true r
    else (parseEscAux false r).map (fun p => (c :: p.1, p.2))

/-- Parse a JSON string body up to its closing unescaped quote, returning the
decoded content and the remainder after the quote. -/
def parseEscUntilQuote (s : List Char) : Option (List Char × List Char) :=
  parseEscAux false s

/-- The JSON scaffolding of a streaming delta frame before the content
string (braces written with escapes): `{"choices":[{"delta":{"content":"`. -/
def deltaHead : List Char := "\x7b\"choices\":[\x7b\"delta\":\x7b\"content\":\"".data

/-- The JSON scaffolding after the content string's closing quote:
`}}]}`. -/
def closeBr : List Char := "\x7d\x7d]\x7d".data

/-- The JSON scaffolding of a buffered (non-streaming) response body before
the content string: `{"choices":[{"message":{"content":"`. -/
def msgHead : List Char := "\x7b\"choices\":[\x7b\"message\":\x7b\"content\":\"".data

/-- Model of `JSON.parse(jsonStr)` followed by
`json.choices[0].delta?.content` on one frame's JSON text: succeeds exactly
on a complete delta object of the wire shape, returning the content. -/
def parseDeltaJson (s : List Char) : Option (List Char) :=
  if startsWithL deltaHead s then
    match parseEscUntilQuote (s.drop deltaHead.length) with
    | some (content, rest) => if rest = closeBr then some content else none
    | none => none
  else none

/-- Model of `JSON.parse(data)` followed by
`response.choices[0].message.content` in `callLLM` (lines 276-290). -/
def parseBufferedBody (s : List Char) : Option (List Char) :=
  if startsWithL msgHead s then
    match parseEscUntilQuote (s.drop msgHead.length) with
    | some (content, rest) => if rest = closeBr then some content else none
    | none => none
  else none

/-- Processing of one line of a network chunk by the `res.on('data')` handler
of `streamLLM` (lines 182-199): skip when the trimmed line is empty or the
line contains `[DONE]`; otherwise strip `data: `, trim, parse, and contribute
the content (a parse failure or empty content contributes nothing). -/
def processLine (line : List Char) : List Char :=
  if trimWs line = [] then []
  else if containsSeq doneSeq line then []
  else
    let jsonStr := trimWs (stripDataTag line)
    if jsonStr = [] then []
    else
      match parseDeltaJson jsonStr with
      | some content => content
      | none => []

/-- Processing of one network chunk: split on newlines and concatenate the
contributions of the lines, in order. -/
def processChunk (text : List Char) : List Char :=
  joinL ((splitNl text).map processLine)

/-- The full accumulated text (`accumulatedResponse`) after the chunks have
arrived in order. -/
def streamAccum (chunks : List (List Char)) : List Char :=
  joinL (chunks.map processChunk)

/-- The wire text of one delta frame, without its terminating newline. -/
def frameLine (content : List Char) : List Char :=
  dataTag ++ deltaHead ++ escapeStr content ++ '"' :: closeBr

/-- The wire text of one delta frame. -/
def encodeFrame (content : List Char) : List Char := frameLine content ++ ['\n']

/-- The end-of-stream sentinel frame `data: [DONE]`. -/
def doneFrame : List Char := dataTag ++ doneSeq ++ ['\n']

/-- The body of a buffered (non-streaming) response carrying `content`. -/
def encodeBuffered (content : List Char) : List Char :=
  msgHead ++ escapeStr content ++ '"' :: closeBr

/-! ### Lemmas about the streaming model -/

theorem hasChar_append (a : Char) : ∀ l1 l2 : List Char,
    hasChar a (l1 ++ l2) = (hasChar a l1 || hasChar a l2) := by
  intro l1 l2
  induction l1 with
  | nil => simp [hasChar]
  | cons c cs ih => simp [hasChar, ih, Bool.or_assoc]

theorem escChar_no_nl (c : Char) : hasChar '\n' (escChar c) = false := by
  unfold escChar
  by_cases h1 : c = '"'
  · simp [h1, hasChar]
  · rw [if_neg h1]
    by_cases h2 : c = '\\'
    · simp [h2, hasChar]
    · rw [if_neg h2]
      by_cases h3 : c = '\n'
      · simp [h3, hasChar]
      · rw [if_neg h3]
        by_cases h4 : c = '\r'
        · simp [h4, hasChar]
        · rw [if_neg h4]
          by_cases h5 : c = '\t'
          · simp [h5, hasChar]
          · rw [if_neg h5]
            simp [hasChar, h3]

theorem escapeStr_no_nl : ∀ c : List Char, hasChar '\n' (escapeStr c) = false := by
  intro c
  induction c with
  | nil => rfl
  | cons x xs ih => simp [escapeStr, hasChar_append, escChar_no_nl, ih]

theorem frameLine_no_nl (c : List Char) : hasChar '\n' (frameLine c) = false := by
  have h1 : hasChar '\n' dataTag = false := by decide
  have h2 : hasChar '\n' deltaHead = false := by decide
  have h3 : hasChar '\n' ('"' :: closeBr) = false := by decide
  simp [frameLine, hasChar_append, escapeStr_no_nl, h1, h2, h3]

theorem splitNl_append_line (l r : List Char) (hl : hasChar '\n' l = false) :
    splitNl (l ++ '\n' :: r) = l :: splitNl r := by
  induction l with
  | nil => simp [splitNl]
  | cons c cs ih =>
    simp only [hasChar, Bool.or_eq_false_iff, decide_eq_false_iff_not] at hl
    rw [List.cons_append, splitNl, if_neg hl.1, ih hl.2]

theorem dropWhile_noop (l : List Char) (h : ∀ x ∈ l.head?, isWsChar x = false) :
    l.dropWhile isWsChar = l := by
  cases l with
  | nil => rfl
  | cons x xs =>
    have hx := h x (by simp)
    simp [List.dropWhile_cons, hx]

theorem trimWs_noop (l : List Char) (h1 : ∀ x ∈ l.head?, isWsChar x = false)
    (h2 : ∀ x ∈ l.getLast?, isWsChar x = false) : trimWs l = l := by
  unfold trimWs
  rw [dropWhile_noop l h1]
  rw [dropWhile_noop l.reverse (by simpa [List.head?_reverse] using h2)]
  exact List.reverse_reverse l

theorem startsWithL_append_self : ∀ p r : List Char, startsWithL p (p ++ r) = true := by
  intro p r
  induction p with
  | nil => rfl
  | cons c cs ih => simp [startsWithL, ih]

theorem parseEsc_roundtrip : ∀ c rest : List Char,
    parseEscUntilQuote (escapeStr c ++ '"' :: rest) = some (c, rest) := by
  intro c
  induction c with
  | nil =>
    intro rest
    simp [escapeStr, parseEscUntilQuote, parseEscAux]
  | cons x xs ih =>
    intro rest
    have ihq : parseEscAux false (escapeStr xs ++ '"' :: rest) = some (xs, rest) := ih rest
    by_cases h1 : x = '"'
    · simp [parseEscUntilQuote, escapeStr, escChar, h1, parseEscAux, unescChar, ihq]
    · by_cases h2 : x = '\\'
      · simp [parseEscUntilQuote, escapeStr, escChar, h1, h2, parseEscAux, unescChar, ihq]
      · by_cases h3 : x = '\n'
        · simp [parseEscUntilQuote, escapeStr, escChar, h1, h2, h3, parseEscAux, unescChar, ihq]
        · by_cases h4 : x = '\r'
          · simp [parseEscUntilQuote, escapeStr, escChar, h1, h2, h3, h4, parseEscAux,
              unescChar, ihq]
          · by_cases h5 : x = '\t'
            · simp [parseEscUntilQuote, escapeStr, escChar, h1, h2, h3, h4, h5, parseEscAux,
                unescChar, ihq]
            · simp [parseEscUntilQuote, escapeStr, escChar, h1, h2, h3, h4, h5, parseEscAux, ihq]

/-- The buffered call returns exactly the content of the response body. -/
theorem parseBufferedBody_encode (c : List Char) :
    parseBufferedBody (encodeBuffered c) = some c := by
  unfold parseBufferedBody encodeBuffered
  rw [show msgHead ++ escapeStr c ++ '"' :: closeBr = msgHead ++ (escapeStr c ++ '"' :: closeBr)
    by simp]
  rw [if_pos (startsWithL_append_self msgHead (escapeStr c ++ '"' :: closeBr)), List.drop_left,
    parseEsc_roundtrip]
  simp

/-- A frame line is recovered intact by the per-line processing, provided it
does not contain the `[DONE]` sentinel text. -/
theorem processLine_frame (c : List Char)
    (hdone : containsSeq doneSeq (frameLine c) = false) :
    processLine (frameLine c) = c := by
  have hhead : ∀ x ∈ (frameLine c).head?, isWsChar x = false := by
    intro x hx
    have : frameLine c = 'd' :: ("ata: ".data ++ deltaHead ++ escapeStr c ++ '"' :: closeBr) := by
      simp [frameLine, dataTag]
    rw [this] at hx
    simp at hx
    rw [← hx]
    decide
  have hlast : ∀ x ∈ (frameLine c).getLast?, isWsChar x = false := by
    intro x hx
    have : frameLine c =
        (dataTag ++ deltaHead ++ escapeStr c ++ ['"', '\x7d', '\x7d', ']']) ++ ['\x7d'] := by
      simp [frameLine, closeBr]
    rw [this, List.getLast?_append_of_ne_nil _ (by simp)] at hx
    simp at hx
    rw [← hx]
    decide
  have htrim : trimWs (frameLine c) = frameLine c := trimWs_noop _ hhead hlast
  have hne : frameLine c ≠ [] := by simp [frameLine, dataTag]
  have hjson : stripDataTag (frameLine c) = deltaHead ++ escapeStr c ++ '"' :: closeBr := by
    unfold stripDataTag
    rw [show frameLine c = dataTag ++ (deltaHead ++ escapeStr c ++ '"' :: closeBr) by
      simp [frameLine]]
    rw [if_pos (startsWithL_append_self dataTag _), List.drop_left]
  have hjhead : ∀ x ∈ (deltaHead ++ escapeStr c ++ '"' :: closeBr).head?, isWsChar x = false := by
    intro x hx
    have : deltaHead ++ escapeStr c ++ '"' :: closeBr =
        '\x7b' :: ("\"choices\":[\x7b\"delta\":\x7b\"content\":\"".data ++
          (escapeStr c ++ '"' :: closeBr)) := by
      simp [deltaHead]
    rw [this] at hx
    simp at hx
    rw [← hx]
    decide
  have hjlast : ∀ x ∈ (deltaHead ++ escapeStr c ++ '"' :: closeBr).getLast?,
      isWsChar x = false := by
    intro x hx
    have : deltaHead ++ escapeStr c ++ '"' :: closeBr =
        (deltaHead ++ escapeStr c ++ ['"', '\x7d', '\x7d', ']']) ++ ['\x7d'] := by
      simp [closeBr]
    rw [this, List.getLast?_append_of_ne_nil _ (by simp)] at hx
    simp at hx
    rw [← hx]
    decide
  have hjtrim : trimWs (deltaHead ++ escapeStr c ++ '"' :: closeBr) =
      deltaHead ++ escapeStr c ++ '"' :: closeBr := trimWs_noop _ hjhead hjlast
  have hdelta : parseDeltaJson (deltaHead ++ escapeStr c ++ '"' :: closeBr) = some c := by
    unfold parseDeltaJson
    rw [show deltaHead ++ escapeStr c ++ '"' :: closeBr =
      deltaHead ++ (escapeStr c ++ '"' :: closeBr) by simp]
    rw [if_pos (startsWithL_append_self deltaHead _), List.drop_left, parseEsc_roundtrip]
    simp
  have hdne : deltaHead ≠ ([] : List Char) := by decide
  simp only [processLine, htrim, hne, ite_false, hdone, Bool.false_eq_true, hjson, hjtrim,
    hdelta, List.append_eq_nil]
  simp

theorem joinL_append : ∀ a b : List (List Char), joinL (a ++ b) = joinL a ++ joinL b := by
  intro a b
  induction a with
  | nil => simp [joinL]
  | cons x xs ih => simp [joinL, ih]

/-- A network chunk made of whole frames contributes exactly the
concatenation of the frames' contents (no frame carrying the sentinel
text). -/
theorem processChunk_frames : ∀ g : List (List Char),
    (∀ c ∈ g, containsSeq doneSeq (frameLine c) = false) →
    processChunk (joinL (g.map encodeFrame)) = joinL g := by
  intro g
  induction g with
  | nil => intro _; decide
  | cons c g2 ih =>
    intro hdone
    have hc := hdone c (by simp)
    have hrest : ∀ x ∈ g2, containsSeq doneSeq (frameLine x) = false :=
      fun x hx => hdone x (by simp [hx])
    have hshape : joinL ((c :: g2).map encodeFrame) =
        frameLine c ++ '\n' :: joinL (g2.map encodeFrame) := by
      simp [joinL, encodeFrame]
    rw [hshape]
    unfold processChunk
    rw [splitNl_append_line _ _ (frameLine_no_nl c)]
    simp only [List.map_cons, joinL, processLine_frame c hc]
    have := ih hrest
    unfold processChunk at this
    rw [this]

/-- The sentinel chunk contributes nothing. -/
theorem processChunk_doneFrame : processChunk doneFrame = [] := by decide

/-! ### Lemmas about the file synchronizer -/

theorem applyUpdate_skip (fs : String → Option String) (u : String × String)
    (h : fs u.1 = some u.2) : applyUpdate fs u = (fs, none) := by
  unfold applyUpdate
  rw [h]
  simp

theorem applyUpdate_at (fs : String → Option String) (u : String × String) :
    (applyUpdate fs u).1 u.1 = some u.2 := by
  unfold applyUpdate
  rcases h : fs u.1 with _ | old
  · simp only [h]
    simp
  · simp only [h]
    by_cases he : old = u.2
    · rw [if_pos he]
      show fs u.1 = some u.2
      rw [h, he]
    · rw [if_neg he]
      simp

theorem applyUpdate_frame (fs : String → Option String) (u : String × String) (p : String)
    (hp : p ≠ u.1) : (applyUpdate fs u).1 p = fs p := by
  unfold applyUpdate
  rcases fs u.1 with _ | old
  · simp [hp]
  · dsimp only
    by_cases he : old = u.2
    · rw [if_pos he]
    · rw [if_neg he]
      simp [hp]

theorem applyUpdate_entry (fs : String → Option String) (u : String × String)
    (e : String × String × Bool) (he : (applyUpdate fs u).2 = some e) :
    e.1 = u.1 ∧ e.2.1 = u.2 := by
  unfold applyUpdate at he
  rcases h : fs u.1 with _ | old
  · simp only [h] at he
    simp at he
    subst he
    simp
  · simp only [h] at he
    by_cases hq : old = u.2
    · rw [if_pos hq] at he
      simp at he
    · rw [if_neg hq] at he
      simp at he
      subst he
      simp

theorem applyUpdates_frame : ∀ (us : List (String × String)) (fs : String → Option String)
    (p : String), p ∉ us.map Prod.fst → (applyUpdates fs us).1 p = fs p := by
  intro us
  induction us with
  | nil => intro fs p _; rfl
  | cons u us2 ih =>
    intro fs p hp
    simp only [List.map_cons, List.mem_cons, not_or] at hp
    show (applyUpdates (applyUpdate fs u).1 us2).1 p = fs p
    rw [ih (applyUpdate fs u).1 p (by simpa using hp.2)]
    exact applyUpdate_frame fs u p hp.1

theorem applyUpdates_entries : ∀ (us : List (String × String)) (fs : String → Option String)
    (e : String × String × Bool), e ∈ (applyUpdates fs us).2 → (e.1, e.2.1) ∈ us := by
  intro us
  induction us with
  | nil => intro fs e he; simp [applyUpdates] at he
  | cons u us2 ih =>
    intro fs e he
    show (e.1, e.2.1) ∈ u :: us2
    have he2 : e ∈ (match (applyUpdate fs u).2 with
        | some x => [x] | none => []) ++ (applyUpdates (applyUpdate fs u).1 us2).2 := he
    rcases List.mem_append.mp he2 with hl | hr
    · rcases hu : (applyUpdate fs u).2 with _ | x
      · rw [hu] at hl; simp at hl
      · rw [hu] at hl
        simp at hl
        obtain ⟨h1, h2⟩ := applyUpdate_entry fs u x hu
        rw [hl, h1, h2]
        simp
    · right
      exact ih (applyUpdate fs u).1 e hr

/-! ### Claim theorems -/

/-- C5: a `ParsedFileUpdate` whose content is byte-identical to the file
currently on disk is skipped — the tree is unchanged and no change record (no
ChangeSet entry) is produced; consequently applying the same update twice
never produces a change record on the second pass, whatever the starting
tree. -/
theorem C5_identical_update_skipped (fs : String → Option String) (u : String × String)
    (h : fs u.1 = some u.2) :
    applyUpdate fs u = (fs, none) ∧
      ∀ fs2 : String → Option String, (applyUpdate (applyUpdate fs2 u).1 u).2 = none := by
  refine ⟨applyUpdate_skip fs u h, ?_⟩
  intro fs2
  rw [applyUpdate_skip (applyUpdate fs2 u).1 u (applyUpdate_at fs2 u)]

/-- Witness for C5 at a concrete tree holding `a.txt` with content `x`. -/
theorem C5_witness :
    ((fun p : String => if p = "a.txt" then some "x" else none) "a.txt" = some "x") ∧
    (applyUpdate (fun p : String => if p = "a.txt" then some "x" else none) ("a.txt", "x") =
        ((fun p : String => if p = "a.txt" then some "x" else none), none) ∧
      ∀ fs2 : String → Option String,
        (applyUpdate (applyUpdate fs2 ("a.txt", "x")).1 ("a.txt", "x")).2 = none) :=
  ⟨by decide, C5_identical_update_skipped _ _ (by decide)⟩

/-- C6: the response `"update.txt\n```` ``` ````\nhello\n```` ``` ````\n"` parses to exactly one
update `{filename := "update.txt", content := "hello"}`, and synchronizing it
against a working tree without `update.txt` yields the singleton ChangeSet
entry for `update.txt` tagged as created (existed-before flag `false`), the
file then holding `hello`. -/
theorem C6_scenario :
    parseAndUpdateFiles "update.txt\n```\nhello\n```\n" = [("update.txt", "hello")] ∧
    (applyUpdates (fun _ => none) (parseAndUpdateFiles "update.txt\n```\nhello\n```\n")).2 =
      [("update.txt", "hello", false)] ∧
    (applyUpdates (fun _ => none) (parseAndUpdateFiles "update.txt\n```\nhello\n```\n")).1
      "update.txt" = some "hello" :=
  ⟨by decide, by decide, by decide⟩

/-- C8: when every parsed update matched the disk content byte-for-byte (the
ChangeSet is empty) but updates were found, `createCommit` reports
"No files were changed." and issues no staging (`git add`) command and no
commit command. -/
theorem C8_empty_changeset (fs : String → Option String)
    (response summary originalPrompt : String)
    (hne : parseAndUpdateFiles response ≠ [])
    (hch : (applyUpdates fs (parseAndUpdateFiles response)).2 = []) :
    createCommitEffects fs response summary originalPrompt = [GitEff.reportNoChanges] ∧
    (∀ f, GitEff.add f ∉ createCommitEffects fs response summary originalPrompt) ∧
    ∀ m, GitEff.commit m ∉ createCommitEffects fs response summary originalPrompt := by
  have heq : createCommitEffects fs response summary originalPrompt =
      [GitEff.reportNoChanges] := by
    unfold createCommitEffects
    rw [if_neg (by simpa [List.length_eq_zero] using hne)]
    simp [hch, changedNames]
  refine ⟨heq, ?_, ?_⟩ <;> intro x <;> rw [heq] <;> simp

/-- Witness for C8: an update matching the existing file exactly. -/
theorem C8_witness :
    (parseAndUpdateFiles "a.txt\n```\nx\n```\n" ≠ []) ∧
    ((applyUpdates (fun p : String => if p = "a.txt" then some "x" else none)
        (parseAndUpdateFiles "a.txt\n```\nx\n```\n")).2 = []) ∧
    createCommitEffects (fun p : String => if p = "a.txt" then some "x" else none)
      "a.txt\n```\nx\n```\n" "summary" "orig" = [GitEff.reportNoChanges] :=
  ⟨by decide, by decide,
    (C8_empty_changeset (fun p : String => if p = "a.txt" then some "x" else none)
      "a.txt\n```\nx\n```\n" "summary" "orig" (by decide) (by decide)).1⟩

/-- C9: the synchronizer leaves every file not named by an update untouched
(it never deletes or modifies such a file), and every change record it
produces is a whole-file replacement at a (filename, content) pair drawn from
the update set. -/
theorem C9_untouched_frame (fs : String → Option String) (us : List (String × String))
    (p : String) (hp : p ∉ us.map Prod.fst) :
    (applyUpdates fs us).1 p = fs p ∧
    ∀ e ∈ (applyUpdates fs us).2, (e.1, e.2.1) ∈ us :=
  ⟨applyUpdates_frame us fs p hp, fun e he => applyUpdates_entries us fs e he⟩

/-- Witness for C9: `b.txt` is untouched by an update set naming only
`a.txt`. -/
theorem C9_witness :
    (("b.txt" : String) ∉ ([("a.txt", "x")].map Prod.fst : List String)) ∧
    ((applyUpdates (fun _ => none) [("a.txt", "x")]).1 "b.txt" = none ∧
      ∀ e ∈ (applyUpdates (fun _ => none) [("a.txt", "x")]).2, (e.1, e.2.1) ∈ [("a.txt", "x")]) :=
  ⟨by decide, C9_untouched_frame (fun _ => none) [("a.txt", "x")] "b.txt" (by decide)⟩

/-- ChangeSet of two sequential updates to the same filename: the first
occurrence contributes exactly when the prior disk content differs from it,
the second exactly when the two contents differ. -/
theorem applyUpdates_pair (fs : String → Option String) (f c1 c2 : String) :
    changedNames (applyUpdates fs [(f, c1), (f, c2)]).2 =
      (if fs f = some c1 then [] else [f]) ++ (if c1 = c2 then [] else [f]) := by
  rcases hf : fs f with _ | old
  · by_cases h12 : c1 = c2
    · simp [applyUpdates, applyUpdate, changedNames, hf, h12]
    · simp [applyUpdates, applyUpdate, changedNames, hf, h12]
  · by_cases ho : old = c1
    · by_cases h12 : c1 = c2
      · simp [applyUpdates, applyUpdate, changedNames, hf, ho, h12]
      · simp [applyUpdates, applyUpdate, changedNames, hf, ho, h12]
    · by_cases h12 : c1 = c2
      · have ho2 : ¬ old = c2 := fun hh => ho (hh.trans h12.symm)
        simp [applyUpdates, applyUpdate, changedNames, hf, ho, ho2, h12]
      · simp [applyUpdates, applyUpdate, changedNames, hf, ho, h12]

/-- C1 (amended): a response rendered from N well-formed filename+fence
blocks (interleaved with prose lines) parses to exactly those N updates in
document order; applying two updates carrying the same filename in order
leaves the later content as the file's final content; the first occurrence
contributes a ChangeSet entry exactly when the prior disk content differs
from it and the second exactly when its content differs from the first (not
unconditionally both). -/
theorem C1_parse_order_last_wins (items : List RItem) (hwf : ∀ i ∈ items, wfItem i = true)
    (fs : String → Option String) (f c1 c2 : String) :
    parseAndUpdateFiles (String.mk (renderItems items)) = blockUpdates items ∧
    (applyUpdates fs [(f, c1), (f, c2)]).1 f = some c2 ∧
    changedNames (applyUpdates fs [(f, c1), (f, c2)]).2 =
      (if fs f = some c1 then [] else [f]) ++ (if c1 = c2 then [] else [f]) := by
  refine ⟨?_, ?_, applyUpdates_pair fs f c1 c2⟩
  · show parseRun (String.mk (renderItems items)).data true = _
    exact parseRun_renderItems items hwf
  · show (applyUpdate (applyUpdate fs (f, c1)).1 (f, c2)).1 f = some c2
    exact applyUpdate_at (applyUpdate fs (f, c1)).1 (f, c2)

/-- Witness for C1 at one concrete block and one concrete duplicate pair. -/
theorem C1_witness :
    (∀ i ∈ [RItem.block "a.txt" "x"], wfItem i = true) ∧
    (parseAndUpdateFiles (String.mk (renderItems [RItem.block "a.txt" "x"])) =
        blockUpdates [RItem.block "a.txt" "x"] ∧
      (applyUpdates (fun _ => none) [("a", "1"), ("a", "2")]).1 "a" = some "2" ∧
      changedNames (applyUpdates (fun _ => none) [("a", "1"), ("a", "2")]).2 =
        (if (none : Option String) = some "1" then [] else ["a"]) ++
          (if ("1" : String) = "2" then [] else ["a"])) :=
  ⟨by decide,
    C1_parse_order_last_wins [RItem.block "a.txt" "x"] (by decide) (fun _ => none) "a" "1" "2"⟩

/-- C1 counterexample: two blocks with the same filename *and the same
content* parse to two updates, yet synchronizing against an empty tree
records only one ChangeSet entry — the second occurrence contributes
nothing, contradicting "both occurrences contribute an entry". -/
theorem C1_counterexample :
    parseAndUpdateFiles "a.txt\n```\nsame\n```\na.txt\n```\nsame\n```\n" =
      [("a.txt", "same"), ("a.txt", "same")] ∧
    changedNames (applyUpdates (fun _ => none)
      (parseAndUpdateFiles "a.txt\n```\nsame\n```\na.txt\n```\nsame\n```\n")).2 = ["a.txt"] ∧
    (["a.txt"] : List String).length ≠ 2 :=
  ⟨by decide, by decide, by decide⟩

/-- C7 (amended): every parsed update's filename is the whitespace-trim of a
non-empty, newline-free raw filename line; the parser enforces nothing more
(in particular the trimmed filename may be empty or a fence delimiter). -/
theorem C7_filename_from_line (response : String) (u : String × String)
    (hu : u ∈ parseAndUpdateFiles response) :
    ∃ raw : List Char, raw ≠ [] ∧ hasChar '\n' raw = false ∧ u.1 = String.mk (trimWs raw) := by
  obtain ⟨raw, body, h1, h2, h3, h4⟩ := parseAndUpdateFiles_sound response u hu
  exact ⟨raw, h1, h2, by rw [h3]⟩

/-- Witness for C7 at a concrete parsed update. -/
theorem C7_witness :
    (("update.txt", "hello") ∈ parseAndUpdateFiles "update.txt\n```\nhello\n```\n") ∧
    ∃ raw : List Char, raw ≠ [] ∧ hasChar '\n' raw = false ∧
      ("update.txt", "hello").1 = String.mk (trimWs raw) :=
  ⟨by decide, C7_filename_from_line "update.txt\n```\nhello\n```\n" ("update.txt", "hello")
    (by decide)⟩

/-- C7 counterexample: a whitespace-only filename line parses to an update
whose trimmed filename is empty, and a bare fence line can itself become a
filename — both violating the claimed invariant. -/
theorem C7_counterexample :
    parseAndUpdateFiles " \n```\nx\n```\n" = [("", "x")] ∧
    parseAndUpdateFiles "```\n```\nbody\n```\n" = [("```", "body")] :=
  ⟨by decide, by decide⟩

/-- C10 (amended): no parsed update's content contains a newline immediately
followed by three backticks — equivalently, no line of the content after the
first begins with a fence; the parser ends the block at the first
line-starting fence, which need not be a line consisting solely of
backticks. -/
theorem C10_content_no_close (response : String) (u : String × String)
    (hu : u ∈ parseAndUpdateFiles response) :
    containsClose u.2.data = false := by
  obtain ⟨raw, body, -, -, h3, h4⟩ := parseAndUpdateFiles_sound response u hu
  have h5 : u.2 = String.mk body := by rw [h3]
  rw [h5]
  exact h4

/-- Witness for C10 at a concrete parsed update. -/
theorem C10_witness :
    (("a.py", "print(1)") ∈ parseAndUpdateFiles "Fixed the bug\na.py\n```\nprint(1)\n```\n") ∧
    containsClose ("print(1)" : String).data = false :=
  ⟨by decide, C10_content_no_close "Fixed the bug\na.py\n```\nprint(1)\n```\n"
    ("a.py", "print(1)") (by decide)⟩

/-- C10 counterexample: a block whose body opens with a bare fence line is
parsed with that fence line as the *first line of its content* — the content
does contain a line consisting solely of three backticks, and the parser did
not end the block there. -/
theorem C10_counterexample :
    parseAndUpdateFiles "f\n```\n```\nmore\n```\n" = [("f", "```\nmore")] ∧
    splitNl ("```\nmore" : String).data = ["```".data, "more".data] :=
  ⟨by decide, by decide⟩

/-- C3 (amended): a user-issued cancellation of an in-flight streamed turn
never terminates the process (the SIGINT handler only aborts and re-prompts
while processing) and retains no partial assistant reply (the `aborted` flag
suppresses `onComplete`), but the user message of the aborted turn *remains*
appended to the Conversation Store — the store is not restored to its
pre-turn state. -/
theorem C3_abort_turn (history : List Message) (prompt filesContent droppedText : String) :
    processMessageTurn history prompt filesContent (.aborted droppedText) =
      (history ++ [⟨Role.user, buildUserMessage prompt filesContent⟩], false) := rfl

/-- C3 counterexample: aborting the turn for prompt "hi" from an empty store
leaves the store holding the user message — not the (empty) contents it held
before the turn began, contradicting "the Conversation Store holds exactly
the messages it held before the aborted turn began". -/
theorem C3_counterexample :
    processMessageTurn [] "hi" "" (.aborted "partly streamed") =
      ([⟨Role.user, "hi"⟩], false) ∧
    ([⟨Role.user, "hi"⟩] : List Message) ≠ [] :=
  ⟨by decide, by decide⟩

/-- Whole-frame chunks accumulate to the concatenation of their fragments. -/
theorem streamAccum_groups (groups : List (List (List Char)))
    (hdone : ∀ g ∈ groups, ∀ c ∈ g, containsSeq doneSeq (frameLine c) = false) :
    joinL ((groups.map (fun g => joinL (g.map encodeFrame))).map processChunk) =
      joinL (groups.map joinL) := by
  induction groups with
  | nil => rfl
  | cons g gs ih =>
    simp only [List.map_cons, joinL]
    rw [processChunk_frames g (hdone g (by simp)),
      ih (fun x hx c hc => hdone x (by simp [hx]) c hc)]

/-- C4 (amended): when every network chunk boundary falls between frames
(each chunk is a concatenation of whole frames, the sentinel arriving as its
own final frame) and no frame line carries the `[DONE]` text, the streamed
accumulation equals the content of the buffered non-streaming response for
the same underlying text.  (Chunk boundaries that split a frame lose that
frame's fragment — see the counterexample.) -/
theorem C4_stream_equals_buffered (groups : List (List (List Char)))
    (hdone : ∀ g ∈ groups, ∀ c ∈ g, containsSeq doneSeq (frameLine c) = false) :
    streamAccum (groups.map (fun g => joinL (g.map encodeFrame)) ++ [doneFrame]) =
      joinL (groups.map joinL) ∧
    parseBufferedBody (encodeBuffered (joinL (groups.map joinL))) =
      some (joinL (groups.map joinL)) := by
  constructor
  · unfold streamAccum
    rw [List.map_append, joinL_append]
    have h2 : joinL (([doneFrame] : List (List Char)).map processChunk) = [] := by
      simp [joinL, processChunk_doneFrame]
    rw [h2, streamAccum_groups groups hdone, List.append_nil]
  · exact parseBufferedBody_encode _

/-- Witness for C4: fragments "A", "B" delivered as one frame-aligned chunk
followed by the sentinel chunk. -/
theorem C4_witness :
    (∀ g ∈ [[("A" : String).data, ("B" : String).data]], ∀ c ∈ g,
        containsSeq doneSeq (frameLine c) = false) ∧
    (streamAccum ([[("A" : String).data, ("B" : String).data]].map
        (fun g => joinL (g.map encodeFrame)) ++ [doneFrame]) =
      joinL ([[("A" : String).data, ("B" : String).data]].map joinL) ∧
    parseBufferedBody (encodeBuffered
        (joinL ([[("A" : String).data, ("B" : String).data]].map joinL))) =
      some (joinL ([[("A" : String).data, ("B" : String).data]].map joinL))) :=
  ⟨by decide, C4_stream_equals_buffered [[("A" : String).data, ("B" : String).data]] (by decide)⟩

/-- C4 counterexample: the same single-frame response for content "AB",
split into two network chunks *inside* the frame, accumulates to the empty
string — both fragment lines fail to parse and are skipped — while the
buffered call returns "AB".  The first conjunct checks that the two chunks
do reassemble the frame exactly. -/
theorem C4_counterexample :
    joinL ["data: \x7b\"choi".data,
        "ces\":[\x7b\"delta\":\x7b\"content\":\"AB\"\x7d\x7d]\x7d\n".data] =
      encodeFrame "AB".data ∧
    streamAccum ["data: \x7b\"choi".data,
        "ces\":[\x7b\"delta\":\x7b\"content\":\"AB\"\x7d\x7d]\x7d\n".data] = [] ∧
    parseBufferedBody (encodeBuffered "AB".data) = some "AB".data ∧
    ([] : List Char) ≠ "AB".data :=
  ⟨by decide, by decide, by decide, by decide⟩

theorem containsClose_of_no_nl (l : List Char) (h : hasChar '\n' l = false) :
    containsClose l = false := by
  induction l with
  | nil => rfl
  | cons c cs ih =>
    simp only [hasChar, Bool.or_eq_false_iff, decide_eq_false_iff_not] at h
    simp [containsClose, h.1, ih h.2]

/-- A newline-free block body that does not begin with three backticks can
never be mistaken for a fence opener line when followed by the closing
fence. -/
theorem stripFenceNl_body_none (bd : List Char) (hnl : hasChar '\n' bd = false)
    (hbf : startsWithL [btick, btick, btick] bd = false) (X : List Char) :
    stripFenceNl (bd ++ '\n' :: btick :: btick :: btick :: X) = none := by
  rcases bd with _ | ⟨b0, _ | ⟨b1, _ | ⟨b2, rest⟩⟩⟩
  · show stripFenceNl ('\n' :: btick :: btick :: btick :: X) = none
    simp only [stripFenceNl]
    rw [if_neg]
    rintro ⟨h, -⟩
    exact absurd h (by decide)
  · show stripFenceNl (b0 :: '\n' :: btick :: btick :: btick :: X) = none
    simp only [stripFenceNl]
    rw [if_neg]
    rintro ⟨-, h, -⟩
    exact absurd h (by decide)
  · show stripFenceNl (b0 :: b1 :: '\n' :: btick :: btick :: btick :: X) = none
    simp only [stripFenceNl]
    rw [if_neg]
    rintro ⟨-, -, h, -⟩
    exact absurd h (by decide)
  · rcases rest with _ | ⟨r0, r1⟩
    · show stripFenceNl (b0 :: b1 :: b2 :: '\n' :: btick :: btick :: btick :: X) = none
      simp only [stripFenceNl]
      rw [if_neg]
      rintro ⟨h0, h1, h2, -⟩
      simp [startsWithL, h0, h1, h2] at hbf
    · show stripFenceNl (b0 :: b1 :: b2 :: r0 ::
        (r1 ++ '\n' :: btick :: btick :: btick :: X)) = none
      simp only [hasChar, Bool.or_eq_false_iff, decide_eq_false_iff_not] at hnl
      simp only [stripFenceNl]
      rw [if_neg]
      rintro ⟨-, -, -, h⟩
      exact absurd h hnl.2.2.2.1

/-- C2 (amended): `parseAndUpdateFiles` does *not* ignore fence language
tags.  A single well-formed block whose opener carries a non-empty tag
(`f` then ```` ```t ````, body, bare closer) yields no update at all, while the
same block with a bare opener yields exactly the one expected update.  (Only
the second variant's `fileChanges` regex, src/stage2/coder.js lines
1240-1248, tolerates a tag.) -/
theorem C2_tag_not_ignored (f t b : String)
    (hf : f.data ≠ []) (hfn : hasChar '\n' f.data = false) (hff : f ≠ "```")
    (ht : t.data ≠ []) (htn : hasChar '\n' t.data = false)
    (hb : hasChar '\n' b.data = false)
    (hbf : startsWithL [btick, btick, btick] b.data = false) :
    parseAndUpdateFiles (String.mk (f.data ++ '\n' :: btick :: btick :: btick ::
        (t.data ++ '\n' :: (b.data ++ '\n' :: btick :: btick :: btick :: ['\n'])))) = [] ∧
    parseAndUpdateFiles (String.mk (renderItems [RItem.block f b])) =
      [(String.mk (trimWs f.data), b)] := by
  have hff2 : f.data ≠ [btick, btick, btick] := by
    intro hd
    apply hff
    have hmk : f = String.mk f.data := rfl
    rw [hmk, hd]
    decide
  constructor
  · obtain ⟨t0, t', htd⟩ : ∃ t0 t', t.data = t0 :: t' := by
      rcases hq : t.data with _ | ⟨a, a2⟩
      · exact absurd hq ht
      · exact ⟨a, a2, rfl⟩
    have ht0 : ¬ t0 = '\n' := by
      rw [htd] at htn
      simp only [hasChar, Bool.or_eq_false_iff, decide_eq_false_iff_not] at htn
      exact htn.1
    show parseRun (f.data ++ '\n' :: btick :: btick :: btick ::
        (t.data ++ '\n' :: (b.data ++ '\n' :: btick :: btick :: btick :: ['\n']))) true = []
    -- step 1: the filename line is followed by a tagged opener, not ```⏎
    have hm1 : matchAt (f.data ++ '\n' :: btick :: btick :: btick ::
        (t.data ++ '\n' :: (b.data ++ '\n' :: btick :: btick :: btick :: ['\n']))) = none := by
      unfold matchAt
      simp only [takeLine_append _ _ hfn]
      rw [if_neg hf]
      have hst : stripFenceNl (btick :: btick :: btick ::
          (t.data ++ '\n' :: (b.data ++ '\n' :: btick :: btick :: btick :: ['\n']))) = none := by
        rw [htd]
        simp [stripFenceNl, ht0]
      simp only [hst]
    rw [parseRun_skip_line _ _ hfn hm1]
    -- step 2: the tagged opener line cannot start a block either
    have hline2 : hasChar '\n' ([btick, btick, btick] ++ t.data) = false := by
      rw [hasChar_append]
      simp [htn]
      decide
    have hshape2 : btick :: btick :: btick ::
        (t.data ++ '\n' :: (b.data ++ '\n' :: btick :: btick :: btick :: ['\n'])) =
        ([btick, btick, btick] ++ t.data) ++
          '\n' :: (b.data ++ '\n' :: btick :: btick :: btick :: ['\n']) := by
      simp
    have hm2 : matchAt (([btick, btick, btick] ++ t.data) ++
        '\n' :: (b.data ++ '\n' :: btick :: btick :: btick :: ['\n'])) = none := by
      unfold matchAt
      simp only [takeLine_append _ _ hline2]
      rw [if_neg (by simp)]
      have hst2 : stripFenceNl (b.data ++ '\n' :: btick :: btick :: btick :: ['\n']) = none :=
        stripFenceNl_body_none b.data hb hbf ['\n']
      simp only [hst2]
    rw [hshape2, parseRun_skip_line _ _ hline2 hm2]
    -- step 3: the body line is followed by the bare closer, but nothing
    -- closes the would-be block after it
    have hm3 : matchAt (b.data ++ '\n' :: btick :: btick :: btick :: ['\n']) = none := by
      unfold matchAt
      simp only [takeLine_append _ _ hb]
      by_cases hbe : b.data = []
      · simp [hbe]
      · rw [if_neg hbe]
        have : stripFenceNl (btick :: btick :: btick :: '\n' :: ([] : List Char)) = some [] :=
          stripFenceNl_fence []
        simp only [this]
        simp [findClose]
    rw [parseRun_skip_line _ _ hb hm3]
    -- step 4: the bare closer line at the end of the text
    have hm4 : matchAt (([btick, btick, btick] : List Char) ++ '\n' :: []) = none := by
      unfold matchAt
      simp only [takeLine_append [btick, btick, btick] [] (by decide)]
      rw [if_neg (by simp)]
      simp [stripFenceNl]
    have hshape4 : (btick :: btick :: btick :: ['\n'] : List Char) =
        [btick, btick, btick] ++ '\n' :: [] := by simp
    rw [hshape4, parseRun_skip_line _ _ (by decide) hm4]
    exact parseRun_nil true
  · have hwf : ∀ i ∈ [RItem.block f b], wfItem i = true := by
      intro i hi
      simp only [List.mem_singleton] at hi
      subst hi
      simp only [wfItem, Bool.and_eq_true, Bool.not_eq_true']
      refine ⟨⟨⟨?_, hfn⟩, ?_⟩, containsClose_of_no_nl b.data hb⟩
      · simpa using hf
      · simpa using hff2
    show parseRun (String.mk (renderItems [RItem.block f b])).data true = _
    rw [parseRun_renderItems [RItem.block f b] hwf]
    rfl

/-- Witness for C2 at filename `f.py`, tag `python`, body `body`. -/
theorem C2_witness :
    (("f.py" : String).data ≠ [] ∧ hasChar '\n' ("f.py" : String).data = false ∧
      ("f.py" : String) ≠ "```" ∧ ("python" : String).data ≠ [] ∧
      hasChar '\n' ("python" : String).data = false ∧
      hasChar '\n' ("body" : String).data = false ∧
      startsWithL [btick, btick, btick] ("body" : String).data = false) ∧
    (parseAndUpdateFiles (String.mk (("f.py" : String).data ++ '\n' :: btick :: btick :: btick ::
        (("python" : String).data ++ '\n' ::
          (("body" : String).data ++ '\n' :: btick :: btick :: btick :: ['\n'])))) = [] ∧
    parseAndUpdateFiles (String.mk (renderItems [RItem.block "f.py" "body"])) =
      [(String.mk (trimWs ("f.py" : String).data), "body")]) :=
  ⟨⟨by decide, by decide, by decide, by decide, by decide, by decide, by decide⟩,
    C2_tag_not_ignored "f.py" "python" "body" (by decide) (by decide) (by decide) (by decide)
      (by decide) (by decide) (by decide)⟩

/-- C2 counterexample: the tagged block `"f.py\n```` ```python ````\nbody\n```` ``` ````\n"`
yields *no* update, while the identical block with a bare opener yields one —
the language tag is not ignored, so the two responses do not produce the same
`ParsedFileUpdate`. -/
theorem C2_counterexample :
    parseAndUpdateFiles "f.py\n```python\nbody\n```\n" = [] ∧
    parseAndUpdateFiles "f.py\n```\nbody\n```\n" = [("f.py", "body")] :=
  ⟨by decide, by decide⟩

end AiCoder
